import Mathlib

/-!
Verification of `bot.py` (solver_bot): a Telegram exam-solving bot.

We give a shallow embedding of the program's pure core and of its handlers.
Python strings are modelled as `List Char` (Python strings are sequences of
Unicode code points).  The external collaborators (Telegram transport, PIL
image codec, Gemini backend) are modelled as oracle functions returning
`Except` values; handlers are modelled as pure functions producing the list
of outward-visible actions they perform.
-/

/-- The ASCII whitespace characters stripped by Python's `str.strip()`
(Python strips all Unicode whitespace; the properties proved here depend
only on `'\n'` being whitespace and `'-'` and the bullet glyphs not). -/
def pyIsSpace (c : Char) : Bool :=
  c == ' ' || c == '\t' || c == '\n' || c == '\r' || c == '\x0b' || c == '\x0c'

/-- Python `s.strip()`: drop whitespace from the front, then from the back. -/
def pyStrip (s : List Char) : List Char :=
  ((s.dropWhile pyIsSpace).reverse.dropWhile pyIsSpace).reverse

/-- Python's substring test `p in s`. -/
def containsSub (p : List Char) : List Char → Bool
  | [] => p.isEmpty
  | c :: rest => p.isPrefixOf (c :: rest) || containsSub p rest

/-- Python `s.replace(o :: os, new)` for a non-empty pattern `o :: os`:
scan left to right, replacing each leftmost non-overlapping occurrence of
the pattern by `new`.  (Every `replace` call in `bot.py` has a non-empty
pattern.) -/
def pyReplace (o : Char) (os new : List Char) : List Char → List Char
  | [] => []
  | c :: rest =>
    if (o :: os).isPrefixOf (c :: rest) then
      new ++ pyReplace o os new (List.drop (os.length + 1) (c :: rest))
    else
      c :: pyReplace o os new rest
termination_by s => s.length
decreasing_by
  · simp only [List.length_drop, List.length_cons]
    omega
  · simp

/-- Structural evaluator for `pyReplace`: the `Nat` argument counts pattern
characters still to be consumed after a match.  Used to compute `pyReplace`
on concrete inputs. -/
def pyReplaceAux (o : Char) (os new : List Char) : Nat → List Char → List Char
  | _, [] => []
  | k + 1, _ :: rest => pyReplaceAux o os new k rest
  | 0, c :: rest =>
    if (o :: os).isPrefixOf (c :: rest) then
      new ++ pyReplaceAux o os new os.length rest
    else
      c :: pyReplaceAux o os new 0 rest

/-- The `while "\n\n\n" in ans: ans = ans.replace("\n\n\n", "\n\n")` loop of
`format_answer`.  Each iteration of the loop body strictly shortens the
string (proved inline for termination; restated later as
`pyReplace_length_lt`). -/
def collapse (s : List Char) : List Char :=
  if h : containsSub ['\n', '\n', '\n'] s = true then
    collapse (pyReplace '\n' ['\n', '\n'] ['\n', '\n'] s)
  else s
termination_by s.length
decreasing_by
  have le_key : ∀ (n : Nat) (t : List Char), t.length ≤ n →
      (pyReplace '\n' ['\n', '\n'] ['\n', '\n'] t).length ≤ t.length := by
    intro n
    induction n with
    | zero =>
      intro t ht
      cases t with
      | nil => rw [pyReplace]
      | cons c rest => simp at ht
    | succ n ih =>
      intro t ht
      cases t with
      | nil => rw [pyReplace]
      | cons c rest =>
        rw [pyReplace]
        by_cases hp : (('\n' :: ['\n', '\n']) : List Char).isPrefixOf (c :: rest)
        · rw [if_pos hp]
          have hpre := List.isPrefixOf_iff_prefix.mp hp
          have hlen2 := hpre.length_le
          have hrec := ih (List.drop (List.length ['\n', '\n'] + 1) (c :: rest))
            (by simp only [List.length_drop, List.length_cons]
                simp only [List.length_cons] at ht
                omega)
          simp only [List.length_append, List.length_drop, List.length_cons,
            List.length_nil] at hrec hlen2 ⊢
          omega
        · rw [if_neg hp]
          have hrec := ih rest (by simp only [List.length_cons] at ht; omega)
          simp only [List.length_cons]
          omega
  have lt_key : ∀ (n : Nat) (t : List Char), t.length ≤ n →
      containsSub ['\n', '\n', '\n'] t = true →
      (pyReplace '\n' ['\n', '\n'] ['\n', '\n'] t).length < t.length := by
    intro n
    induction n with
    | zero =>
      intro t ht hc
      cases t with
      | nil => simp [containsSub, List.isEmpty] at hc
      | cons c rest => simp at ht
    | succ n ih =>
      intro t ht hc
      cases t with
      | nil => simp [containsSub, List.isEmpty] at hc
      | cons c rest =>
        rw [pyReplace]
        by_cases hp : (('\n' :: ['\n', '\n']) : List Char).isPrefixOf (c :: rest)
        · rw [if_pos hp]
          have hpre := List.isPrefixOf_iff_prefix.mp hp
          have hlen2 := hpre.length_le
          have hrec := le_key (List.drop (List.length ['\n', '\n'] + 1) (c :: rest)).length
            (List.drop (List.length ['\n', '\n'] + 1) (c :: rest)) (Nat.le_refl _)
          simp only [List.length_append, List.length_drop, List.length_cons,
            List.length_nil] at hrec hlen2 ⊢
          omega
        · rw [if_neg hp]
          have hc2 : containsSub ['\n', '\n', '\n'] rest = true := by
            rw [containsSub, Bool.or_eq_true] at hc
            rcases hc with hc | hc
            · exact absurd hc hp
            · exact hc
          have hrec := ih rest (by simp only [List.length_cons] at ht; omega) hc2
          simp only [List.length_cons]
          omega
  exact lt_key s.length s (Nat.le_refl _) h

/-- Model of `format_answer` from `bot.py`: strip, replace the three bullet glyphs by
`'-'`, then iteratively collapse runs of three newlines to two. -/
def format_answer (ans : List Char) : List Char :=
  let a1 := pyStrip ans
  let a2 := pyReplace '•' [] ['-'] a1
  let a3 := pyReplace '●' [] ['-'] a2
  let a4 := pyReplace '▪' [] ['-'] a3
  collapse a4

/-- Model of `to_jpeg` from `bot.py`.  The PIL operations `Image.open`, `convert("RGB")`
and `save(..., format="JPEG")` are external library calls, modelled as oracle
functions that may fail (raise); decoded images are modelled as opaque values
of a type `Img`.  The `try/except` returns the original bytes on any failure. -/
def to_jpeg {Img : Type} (openImg : List Nat → Except (List Char) Img)
    (convertRGB : Img → Except (List Char) Img)
    (saveJPEG : Img → Except (List Char) (List Nat))
    (img_bytes : List Nat) : List Nat :=
  let attempt : Except (List Char) (List Nat) := do
    let img ← openImg img_bytes
    let rgb ← convertRGB img
    saveJPEG rgb
  match attempt with
  | .ok out => out
  | .error _ => img_bytes

/-- The outward-visible actions a Telegram handler performs, in order:
`send_chat_action(..., "typing")`, a `solve_text`/`solve_image` call to the
generative backend, and `reply_text`. -/
inductive BotAction where
  | typing
  | callBackend (question : List Char)
  | reply (msg : List Char)
deriving DecidableEq

/-- Python `" ".join(args)`. -/
def joinSpace : List (List Char) → List Char
  | [] => []
  | [a] => a
  | a :: b :: t => a ++ ' ' :: joinSpace (b :: t)

def usageMsg : List Char := "Usage: /solve <questions>".toList

/-- Model of `solve_cmd` from `bot.py`, as the trace of actions it performs.
`gen` is the generative backend oracle (`solve_text`); `args` is
`context.args`. -/
def solve_cmd (gen : List Char → List Char) (args : List (List Char)) :
    List BotAction :=
  let text := joinSpace args
  if text = [] then
    [BotAction.reply usageMsg]
  else
    [BotAction.typing, BotAction.callBackend text,
     BotAction.reply (format_answer (gen text))]

/-- Model of `handle_text` from `bot.py`, as the trace of actions it performs.
`botUsername` is `BOT_USERNAME`, `chatType` is `update.message.chat.type`,
`text0` is `update.message.text or ""`. -/
def handle_text (gen : List Char → List Char)
    (botUsername chatType text0 : List Char) : List BotAction :=
  if chatType ∈ ["group".toList, "supergroup".toList] then
    if containsSub ('@' :: botUsername) text0 = false then
      []
    else
      let text := pyStrip (pyReplace '@' botUsername [] text0)
      [BotAction.typing, BotAction.callBackend text,
       BotAction.reply (format_answer (gen text))]
  else
    [BotAction.typing, BotAction.callBackend text0,
     BotAction.reply (format_answer (gen text0))]

/-- The external operations `handle_image` performs, each of which may fail
(raise): `update.message.photo[-1]`, `photo.get_file()`,
`file.download_as_bytearray()`, `send_chat_action`, the backend call inside
`solve_image`, and `reply_text`.  Photos and file handles are opaque `Nat`
identifiers, image bytes are `List Nat`, errors are `List Char`. -/
structure ImageEnv where
  photoLast : Except (List Char) Nat
  getFile : Nat → Except (List Char) Nat
  download : Nat → Except (List Char) (List Nat)
  sendTyping : Except (List Char) Unit
  generate : List Nat → Except (List Char) (List Char)
  replyText : List Char → Except (List Char) Unit

/-- The body of the `try:` block of `handle_image`, returning the list of
messages delivered to the user (just the formatted answer) on success, or
the first failure. -/
def handle_image_try (env : ImageEnv) : Except (List Char) (List (List Char)) := do
  let photo ← env.photoLast
  let file ← env.getFile photo
  let img_bytes ← env.download file
  let _ ← env.sendTyping
  let ans ← env.generate img_bytes
  let formatted := format_answer ans
  let _ ← env.replyText formatted
  pure [formatted]

/-- Model of `handle_image` from `bot.py`: the `try/except` around the photo pipeline.
Returns the messages delivered to the user and the failure, if any, that
escaped the handler. -/
def handle_image (env : ImageEnv) : List (List Char) × Option (List Char) :=
  match handle_image_try env with
  | .ok sent => (sent, none)
  | .error _ =>
    match env.replyText "Image processing failed.".toList with
    | .ok _ => (["Image processing failed.".toList], none)
    | .error e => ([], some e)

/-- An identity generative-backend oracle, used to instantiate witnesses. -/
def genId : List Char → List Char := fun t => t

/-- An environment whose photo access fails (as when `update.message.photo`
is empty and `photo[-1]` raises) and whose transport otherwise works. -/
def failEnv : ImageEnv where
  photoLast := .error "no photo".toList
  getFile := fun _ => .ok 0
  download := fun _ => .ok []
  sendTyping := .ok ()
  generate := fun _ => .ok []
  replyText := fun _ => .ok ()

/-- Lemma: `List.isPrefixOf` decides the prefix relation (restated under a local
name). -/
theorem isPrefixOf_eq_true_iff {l1 l2 : List Char} :
    l1.isPrefixOf l2 = true ↔ l1 <+: l2 :=
  List.isPrefixOf_iff_prefix

theorem pyReplaceAux_eq_drop (o : Char) (os new : List Char) :
    ∀ (k : Nat) (s : List Char),
      pyReplaceAux o os new k s = pyReplaceAux o os new 0 (s.drop k)
  | 0, _ => by rw [List.drop_zero]
  | _ + 1, [] => by simp [pyReplaceAux]
  | k + 1, c :: rest => by
    rw [List.drop_succ_cons]
    exact pyReplaceAux_eq_drop o os new k rest

theorem pyReplace_eq_aux (o : Char) (os new : List Char) (s : List Char) :
    pyReplace o os new s = pyReplaceAux o os new 0 s := by
  have key : ∀ (n : Nat) (s : List Char), s.length ≤ n →
      pyReplace o os new s = pyReplaceAux o os new 0 s := by
    intro n
    induction n with
    | zero =>
      intro s hs
      match s with
      | [] => rw [pyReplace, pyReplaceAux]
    | succ n ih =>
      intro s hs
      match s with
      | [] => rw [pyReplace, pyReplaceAux]
      | c :: rest =>
        rw [pyReplace, pyReplaceAux]
        by_cases h : (o :: os).isPrefixOf (c :: rest)
        · rw [if_pos h, if_pos h, pyReplaceAux_eq_drop]
          have hd : List.drop (os.length + 1) (c :: rest) = rest.drop os.length := by
            rw [List.drop_succ_cons]
          rw [hd]
          congr 1
          refine ih _ ?_
          simp only [List.length_drop]
          simp only [List.length_cons] at hs
          omega
        · rw [if_neg h, if_neg h]
          congr 1
          refine ih _ ?_
          simp only [List.length_cons] at hs
          omega
  exact key s.length s (Nat.le_refl _)

theorem pyReplace_length_le (o : Char) (os new : List Char)
    (hlen : new.length ≤ os.length + 1) :
    ∀ (s : List Char), (pyReplace o os new s).length ≤ s.length := by
  have key : ∀ (n : Nat) (s : List Char), s.length ≤ n →
      (pyReplace o os new s).length ≤ s.length := by
    intro n
    induction n with
    | zero =>
      intro s hs
      match s with
      | [] => rw [pyReplace]
    | succ n ih =>
      intro s hs
      match s with
      | [] => rw [pyReplace]
      | c :: rest =>
        rw [pyReplace]
        by_cases h : (o :: os).isPrefixOf (c :: rest)
        · rw [if_pos h]
          have hpre : (o :: os) <+: (c :: rest) := by
            exact isPrefixOf_eq_true_iff.mp h
          have hlen2 : os.length + 1 ≤ rest.length + 1 := by
            have := hpre.length_le
            simpa using this
          have hrec := ih (List.drop (os.length + 1) (c :: rest))
            (by simp only [List.length_drop, List.length_cons]
                simp only [List.length_cons] at hs
                omega)
          simp only [List.length_append, List.length_drop, List.length_cons] at hrec ⊢
          omega
        · rw [if_neg h]
          have hrec := ih rest (by simp only [List.length_cons] at hs; omega)
          simp only [List.length_cons]
          omega
  exact fun s => key s.length s (Nat.le_refl _)

theorem pyReplace_length_lt (o : Char) (os new : List Char)
    (hlen : new.length < os.length + 1) :
    ∀ (s : List Char), containsSub (o :: os) s = true →
      (pyReplace o os new s).length < s.length := by
  have key : ∀ (n : Nat) (s : List Char), s.length ≤ n →
      containsSub (o :: os) s = true →
      (pyReplace o os new s).length < s.length := by
    intro n
    induction n with
    | zero =>
      intro s hs hc
      match s with
      | [] => simp [containsSub, List.isEmpty] at hc
    | succ n ih =>
      intro s hs hc
      match s with
      | [] => simp [containsSub, List.isEmpty] at hc
      | c :: rest =>
        rw [pyReplace]
        by_cases h : (o :: os).isPrefixOf (c :: rest)
        · rw [if_pos h]
          have hpre : (o :: os) <+: (c :: rest) := isPrefixOf_eq_true_iff.mp h
          have hlen2 : os.length + 1 ≤ rest.length + 1 := by
            have := hpre.length_le
            simpa using this
          have hrec := pyReplace_length_le o os new (Nat.le_of_lt_succ
            (Nat.lt_succ_of_lt hlen)) (List.drop (os.length + 1) (c :: rest))
          simp only [List.length_append, List.length_drop, List.length_cons] at hrec ⊢
          omega
        · rw [if_neg h]
          have hc2 : containsSub (o :: os) rest = true := by
            rw [containsSub, Bool.or_eq_true] at hc
            rcases hc with hc | hc
            · exact absurd hc h
            · exact hc
          have hrec := ih rest (by simp only [List.length_cons] at hs; omega) hc2
          simp only [List.length_cons]
          omega
  exact fun s => key s.length s (Nat.le_refl _)

/-! ### Helper lemmas about `pyReplace` -/

theorem getLast?_drop_of_ne_nil :
    ∀ (n : Nat) (l : List Char), l.drop n ≠ [] → (l.drop n).getLast? = l.getLast?
  | 0, _, _ => by rw [List.drop_zero]
  | _ + 1, [], h => absurd rfl h
  | n + 1, x :: xs, h => by
    rw [List.drop_succ_cons] at h ⊢
    rw [getLast?_drop_of_ne_nil n xs h]
    have hxs : xs ≠ [] := by
      intro he
      exact h (by rw [he, List.drop_nil])
    match xs with
    | y :: ys => rw [List.getLast?_cons_cons]

theorem getLast?_cons_of_ne_nil {x : Char} {xs : List Char} (h : xs ≠ []) :
    (x :: xs).getLast? = xs.getLast? := by
  match xs with
  | y :: ys => rw [List.getLast?_cons_cons]

theorem pyReplace_mem (o : Char) (os new : List Char) {c : Char} :
    ∀ (s : List Char), c ∈ pyReplace o os new s → c ∈ s ∨ c ∈ new := by
  have key : ∀ (n : Nat) (s : List Char), s.length ≤ n →
      c ∈ pyReplace o os new s → c ∈ s ∨ c ∈ new := by
    intro n
    induction n with
    | zero =>
      intro s hs hm
      match s with
      | [] => rw [pyReplace] at hm; exact absurd hm (List.not_mem_nil c)
    | succ n ih =>
      intro s hs hm
      match s with
      | [] => rw [pyReplace] at hm; exact absurd hm (List.not_mem_nil c)
      | c0 :: rest =>
        rw [pyReplace] at hm
        by_cases h : (o :: os).isPrefixOf (c0 :: rest)
        · rw [if_pos h] at hm
          rcases List.mem_append.mp hm with hm | hm
          · exact Or.inr hm
          · have := ih (List.drop (os.length + 1) (c0 :: rest))
              (by simp only [List.length_drop, List.length_cons]
                  simp only [List.length_cons] at hs
                  omega) hm
            rcases this with hm2 | hm2
            · exact Or.inl (List.drop_subset _ _ hm2)
            · exact Or.inr hm2
        · rw [if_neg h] at hm
          rcases List.mem_cons.mp hm with hm | hm
          · exact Or.inl (hm ▸ List.mem_cons_self _ _)
          · have := ih rest (by simp only [List.length_cons] at hs; omega) hm
            rcases this with hm2 | hm2
            · exact Or.inl (List.mem_cons_of_mem _ hm2)
            · exact Or.inr hm2
  exact fun s => key s.length s (Nat.le_refl _)

/-- A single-character replace is a character map. -/
theorem pyReplace_single (a b : Char) :
    ∀ (s : List Char),
      pyReplace a [] [b] s = s.map (fun c => if c == a then b else c)
  | [] => by rw [pyReplace, List.map_nil]
  | c :: rest => by
    rw [pyReplace, List.map_cons]
    by_cases h : c == a
    · have hpre : ([a].isPrefixOf (c :: rest)) = true := by
        simp only [List.isPrefixOf, Bool.and_true]
        rw [BEq.comm]
        exact h
      rw [if_pos hpre]
      simp only [List.length_nil, Nat.zero_add, List.drop_succ_cons, List.drop_zero]
      rw [pyReplace_single a b rest, if_pos h]
      rfl
    · have hpre : ([a].isPrefixOf (c :: rest)) = false := by
        simp only [List.isPrefixOf, Bool.and_true]
        rw [BEq.comm]
        simp only [h]
      rw [if_neg (by simp [hpre]), if_neg h]
      rw [pyReplace_single a b rest]

theorem pyReplace_head? (o : Char) (os new : List Char) {c : Char}
    {s : List Char} (hne : c ≠ o) (h : s.head? = some c) :
    (pyReplace o os new s).head? = some c := by
  match s with
  | c0 :: rest =>
    rw [List.head?_cons, Option.some_inj] at h
    subst h
    rw [pyReplace]
    have hpre : ((o :: os).isPrefixOf (c0 :: rest)) = false := by
      simp only [List.isPrefixOf, Bool.and_eq_false_iff]
      left
      simp only [beq_eq_false_iff_ne, ne_eq]
      exact fun he => hne he.symm
    rw [if_neg (by simp [hpre])]
    rw [List.head?_cons]

/-- Lemma: `pyReplace` preserves the last character when it differs from the last
character of the pattern: no occurrence of the pattern can cover it. -/
theorem pyReplace_getLast? (o : Char) (os new : List Char) {c : Char}
    (hne : (o :: os).getLast (List.cons_ne_nil o os) ≠ c) :
    ∀ (s : List Char), s.getLast? = some c →
      (pyReplace o os new s).getLast? = some c := by
  have key : ∀ (n : Nat) (s : List Char), s.length ≤ n → s.getLast? = some c →
      (pyReplace o os new s).getLast? = some c := by
    intro n
    induction n with
    | zero =>
      intro s hs hlast
      match s with
      | [] => simp at hlast
    | succ n ih =>
      intro s hs hlast
      match s with
      | [] => simp at hlast
      | c0 :: rest =>
        rw [pyReplace]
        by_cases h : (o :: os).isPrefixOf (c0 :: rest)
        · rw [if_pos h]
          have hpre : (o :: os) <+: (c0 :: rest) := isPrefixOf_eq_true_iff.mp h
          have hd : List.drop (os.length + 1) (c0 :: rest) ≠ [] := by
            intro hdnil
            rw [List.drop_eq_nil_iff] at hdnil
            have heq : (o :: os) = (c0 :: rest) := by
              refine hpre.eq_of_length ?_
              have := hpre.length_le
              simp only [List.length_cons] at this hdnil ⊢
              omega
            rw [← heq] at hlast
            rw [List.getLast?_eq_getLast (o :: os) (List.cons_ne_nil o os)] at hlast
            exact hne (Option.some_inj.mp hlast)
          have hdlast : (List.drop (os.length + 1) (c0 :: rest)).getLast? = some c := by
            rw [getLast?_drop_of_ne_nil _ _ hd]
            exact hlast
          have hrec := ih (List.drop (os.length + 1) (c0 :: rest))
            (by simp only [List.length_drop, List.length_cons]
                simp only [List.length_cons] at hs
                omega) hdlast
          have hnn : pyReplace o os new (List.drop (os.length + 1) (c0 :: rest)) ≠ [] := by
            intro he
            rw [he] at hrec
            simp at hrec
          rw [List.getLast?_append_of_ne_nil _ hnn]
          exact hrec
        · rw [if_neg h]
          by_cases hrest : rest = []
          · subst hrest
            simp only [List.getLast?_singleton, Option.some_inj] at hlast
            rw [pyReplace]
            simp only [List.getLast?_singleton, Option.some_inj]
            exact hlast
          · have hlast2 : rest.getLast? = some c := by
              rw [getLast?_cons_of_ne_nil hrest] at hlast
              exact hlast
            have hrec := ih rest (by simp only [List.length_cons] at hs; omega) hlast2
            have hnn : pyReplace o os new rest ≠ [] := by
              intro he
              rw [he] at hrec
              simp at hrec
            rw [getLast?_cons_of_ne_nil hnn]
            exact hrec
  exact fun s => key s.length s (Nat.le_refl _)

/-! ### Helper lemmas about `pyStrip` -/

theorem pyStrip_eq_rdropWhile (s : List Char) :
    pyStrip s = List.rdropWhile pyIsSpace (List.dropWhile pyIsSpace s) := rfl

theorem pyStrip_length_le (s : List Char) : (pyStrip s).length ≤ s.length := by
  rw [pyStrip_eq_rdropWhile]
  have h1 := List.rdropWhile_prefix pyIsSpace (List.dropWhile pyIsSpace s)
  have h2 := List.dropWhile_suffix (l := s) pyIsSpace
  exact Nat.le_trans h1.length_le h2.length_le

theorem pyStrip_head? {s : List Char} {c : Char}
    (h : (pyStrip s).head? = some c) : pyIsSpace c = false := by
  rw [pyStrip_eq_rdropWhile] at h
  have hpre := List.rdropWhile_prefix pyIsSpace (List.dropWhile pyIsSpace s)
  obtain ⟨t, ht⟩ := hpre
  have hh : (List.dropWhile pyIsSpace s).head? = some c := by
    rw [← ht]
    match hm : List.rdropWhile pyIsSpace (List.dropWhile pyIsSpace s) with
    | [] => rw [hm] at h; simp at h
    | c0 :: t0 =>
      rw [hm] at h
      simp only [List.head?_cons, Option.some_inj] at h
      subst h
      rfl
  have := List.head?_dropWhile_not pyIsSpace s
  rw [hh] at this
  exact this

theorem pyStrip_getLast? {s : List Char} {c : Char}
    (h : (pyStrip s).getLast? = some c) : pyIsSpace c = false := by
  rw [pyStrip_eq_rdropWhile] at h
  have hnn : List.rdropWhile pyIsSpace (List.dropWhile pyIsSpace s) ≠ [] := by
    intro he
    rw [he] at h
    simp at h
  have := List.rdropWhile_last_not pyIsSpace (List.dropWhile pyIsSpace s) hnn
  rw [List.getLast?_eq_getLast _ hnn] at h
  rw [Option.some_inj] at h
  rw [h] at this
  simpa using this

theorem pyStrip_eq_self {s : List Char}
    (hh : ∀ c, s.head? = some c → pyIsSpace c = false)
    (hl : ∀ c, s.getLast? = some c → pyIsSpace c = false) :
    pyStrip s = s := by
  rw [pyStrip_eq_rdropWhile]
  have h1 : List.dropWhile pyIsSpace s = s := by
    match s with
    | [] => rfl
    | c :: rest =>
      rw [List.dropWhile_cons, if_neg]
      rw [hh c (by rw [List.head?_cons])]
      simp
  rw [h1]
  rw [List.rdropWhile_eq_self_iff]
  intro hnn
  rw [hl (s.getLast hnn) (List.getLast?_eq_getLast s hnn)]
  simp

/-! ### Helper lemmas about `collapse` -/

theorem collapse_eq_self {s : List Char}
    (hc : containsSub ['\n', '\n', '\n'] s = false) : collapse s = s := by
  rw [collapse, dif_neg (by simp [hc])]

theorem collapse_not_contains (s : List Char) :
    containsSub ['\n', '\n', '\n'] (collapse s) = false := by
  have key : ∀ (n : Nat) (s : List Char), s.length ≤ n →
      containsSub ['\n', '\n', '\n'] (collapse s) = false := by
    intro n
    induction n with
    | zero =>
      intro s hs
      match s with
      | [] =>
        rw [collapse_eq_self (by rw [containsSub]; rfl)]
        rw [containsSub]
        rfl
    | succ n ih =>
      intro s hs
      by_cases hc : containsSub ['\n', '\n', '\n'] s = true
      · rw [collapse, dif_pos hc]
        refine ih _ ?_
        have := pyReplace_length_lt '\n' ['\n', '\n'] ['\n', '\n'] (by decide) s hc
        omega
      · rw [collapse, dif_neg hc]
        exact Bool.eq_false_iff.mpr hc
  exact key s.length s (Nat.le_refl _)

theorem collapse_length_le (s : List Char) : (collapse s).length ≤ s.length := by
  have key : ∀ (n : Nat) (s : List Char), s.length ≤ n →
      (collapse s).length ≤ s.length := by
    intro n
    induction n with
    | zero =>
      intro s hs
      match s with
      | [] => rw [collapse_eq_self (by rw [containsSub]; rfl)]
    | succ n ih =>
      intro s hs
      by_cases hc : containsSub ['\n', '\n', '\n'] s = true
      · rw [collapse, dif_pos hc]
        have hlt := pyReplace_length_lt '\n' ['\n', '\n'] ['\n', '\n'] (by decide) s hc
        have := ih (pyReplace '\n' ['\n', '\n'] ['\n', '\n'] s) (by omega)
        omega
      · rw [collapse, dif_neg hc]
  exact key s.length s (Nat.le_refl _)

theorem collapse_mem {c : Char} (s : List Char)
    (hm : c ∈ collapse s) : c ∈ s ∨ c = '\n' := by
  have key : ∀ (n : Nat) (s : List Char), s.length ≤ n →
      c ∈ collapse s → c ∈ s ∨ c = '\n' := by
    intro n
    induction n with
    | zero =>
      intro s hs hm
      match s with
      | [] => rw [collapse_eq_self (by rw [containsSub]; rfl)] at hm; exact Or.inl hm
    | succ n ih =>
      intro s hs hm
      by_cases hc : containsSub ['\n', '\n', '\n'] s = true
      · rw [collapse, dif_pos hc] at hm
        have hlt := pyReplace_length_lt '\n' ['\n', '\n'] ['\n', '\n'] (by decide) s hc
        have := ih (pyReplace '\n' ['\n', '\n'] ['\n', '\n'] s) (by omega) hm
        rcases this with hm2 | hm2
        · rcases pyReplace_mem '\n' ['\n', '\n'] ['\n', '\n'] s hm2 with hm3 | hm3
          · exact Or.inl hm3
          · right
            rcases List.mem_cons.mp hm3 with h3 | h3
            · exact h3
            · rcases List.mem_cons.mp h3 with h4 | h4
              · exact h4
              · exact absurd h4 (List.not_mem_nil c)
        · exact Or.inr hm2
      · rw [collapse, dif_neg hc] at hm
        exact Or.inl hm
  exact key s.length s (Nat.le_refl _) hm

theorem collapse_head? {c : Char} (hne : c ≠ '\n') (s : List Char)
    (h : s.head? = some c) : (collapse s).head? = some c := by
  have key : ∀ (n : Nat) (s : List Char), s.length ≤ n →
      s.head? = some c → (collapse s).head? = some c := by
    intro n
    induction n with
    | zero =>
      intro s hs h
      match s with
      | [] => simp at h
    | succ n ih =>
      intro s hs h
      by_cases hc : containsSub ['\n', '\n', '\n'] s = true
      · rw [collapse, dif_pos hc]
        have hlt := pyReplace_length_lt '\n' ['\n', '\n'] ['\n', '\n'] (by decide) s hc
        exact ih _ (by omega) (pyReplace_head? '\n' ['\n', '\n'] ['\n', '\n'] hne h)
      · rw [collapse, dif_neg hc]
        exact h
  exact key s.length s (Nat.le_refl _) h

theorem collapse_getLast? {c : Char} (hne : c ≠ '\n') (s : List Char)
    (h : s.getLast? = some c) : (collapse s).getLast? = some c := by
  have key : ∀ (n : Nat) (s : List Char), s.length ≤ n →
      s.getLast? = some c → (collapse s).getLast? = some c := by
    intro n
    induction n with
    | zero =>
      intro s hs h
      match s with
      | [] => simp at h
    | succ n ih =>
      intro s hs h
      by_cases hc : containsSub ['\n', '\n', '\n'] s = true
      · rw [collapse, dif_pos hc]
        have hlt := pyReplace_length_lt '\n' ['\n', '\n'] ['\n', '\n'] (by decide) s hc
        refine ih _ (by omega) ?_
        refine pyReplace_getLast? '\n' ['\n', '\n'] ['\n', '\n'] ?_ s h
        intro he
        exact hne he.symm
      · rw [collapse, dif_neg hc]
        exact h
  exact key s.length s (Nat.le_refl _) h

/-! ### Properties of `format_answer` -/

theorem format_answer_def (ans : List Char) :
    format_answer ans =
      collapse (pyReplace '▪' [] ['-']
        (pyReplace '●' [] ['-']
          (pyReplace '•' [] ['-'] (pyStrip ans)))) := rfl

/-- The single-character substitution map used for one bullet glyph. -/
theorem bullet_map_not_mem {a b : Char} (hab : a ≠ b) (s : List Char) :
    a ∉ s.map (fun c => if c == a then b else c) := by
  intro hm
  obtain ⟨d, _, hd⟩ := List.mem_map.mp hm
  by_cases h : d == a
  · rw [if_pos h] at hd
    exact hab hd.symm
  · rw [if_neg h] at hd
    rw [hd] at h
    simp at h

theorem bullet_map_not_mem_of_not_mem {a b x : Char} (hxb : x ≠ b)
    (s : List Char) (hx : x ∉ s) :
    x ∉ s.map (fun c => if c == a then b else c) := by
  intro hm
  obtain ⟨d, hds, hd⟩ := List.mem_map.mp hm
  by_cases h : d == a
  · rw [if_pos h] at hd
    exact hxb hd.symm
  · rw [if_neg h] at hd
    exact hx (hd ▸ hds)

theorem format_answer_not_mem_b1 (T : List Char) : '•' ∉ format_answer T := by
  rw [format_answer_def]
  intro hm
  rcases collapse_mem _ hm with hm | hm
  · rcases pyReplace_mem _ _ _ _ hm with hm2 | hm2
    · rcases pyReplace_mem _ _ _ _ hm2 with hm3 | hm3
      · rw [pyReplace_single] at hm3
        exact bullet_map_not_mem (by decide) _ hm3
      · simp at hm3
    · simp at hm2
  · simp at hm

theorem format_answer_not_mem_b2 (T : List Char) : '●' ∉ format_answer T := by
  rw [format_answer_def]
  intro hm
  rcases collapse_mem _ hm with hm | hm
  · rcases pyReplace_mem _ _ _ _ hm with hm2 | hm2
    · rw [pyReplace_single] at hm2
      exact bullet_map_not_mem (by decide) _ hm2
    · simp at hm2
  · simp at hm

theorem format_answer_not_mem_b3 (T : List Char) : '▪' ∉ format_answer T := by
  rw [format_answer_def]
  intro hm
  rcases collapse_mem _ hm with hm | hm
  · rw [pyReplace_single] at hm
    exact bullet_map_not_mem (by decide) _ hm
  · simp at hm

theorem format_answer_not_contains_nl3 (T : List Char) :
    containsSub ['\n', '\n', '\n'] (format_answer T) = false := by
  rw [format_answer_def]
  exact collapse_not_contains _

/-- One bullet substitution step keeps non-whitespace characters
non-whitespace. -/
theorem bullet_map_isSpace {a b : Char} (hb : pyIsSpace b = false) {c : Char}
    (hc : pyIsSpace c = false) :
    pyIsSpace (if c == a then b else c) = false := by
  by_cases h : c == a
  · rw [if_pos h]; exact hb
  · rw [if_neg h]; exact hc

theorem format_answer_head? {T : List Char} {c : Char}
    (h : (format_answer T).head? = some c) : pyIsSpace c = false := by
  rw [format_answer_def] at h
  match h1 : (pyStrip T).head? with
  | none =>
    rw [List.head?_eq_none_iff] at h1
    rw [h1] at h
    rw [pyReplace_single, pyReplace_single, pyReplace_single] at h
    simp only [List.map_nil] at h
    rw [collapse_eq_self (by rw [containsSub]; rfl)] at h
    simp at h
  | some c1 =>
    have hc1 : pyIsSpace c1 = false := pyStrip_head? h1
    rw [pyReplace_single, pyReplace_single, pyReplace_single] at h
    set f1 : Char → Char := fun c => if c == '•' then '-' else c with hf1
    set f2 : Char → Char := fun c => if c == '●' then '-' else c with hf2
    set f3 : Char → Char := fun c => if c == '▪' then '-' else c with hf3
    have h4 : ((((pyStrip T).map f1).map f2).map f3).head? = some (f3 (f2 (f1 c1))) := by
      rw [List.head?_map, List.head?_map, List.head?_map, h1]
      rfl
    have hc4 : pyIsSpace (f3 (f2 (f1 c1))) = false := by
      refine bullet_map_isSpace (by decide) ?_
      refine bullet_map_isSpace (by decide) ?_
      exact bullet_map_isSpace (by decide) hc1
    have hcol := collapse_head? (c := f3 (f2 (f1 c1)))
      (by intro he; rw [he] at hc4; simp [pyIsSpace] at hc4) _ h4
    rw [hcol] at h
    rw [Option.some_inj] at h
    rw [← h]
    exact hc4

theorem format_answer_getLast? {T : List Char} {c : Char}
    (h : (format_answer T).getLast? = some c) : pyIsSpace c = false := by
  rw [format_answer_def] at h
  match h1 : (pyStrip T).getLast? with
  | none =>
    rw [List.getLast?_eq_none_iff] at h1
    rw [h1] at h
    rw [pyReplace_single, pyReplace_single, pyReplace_single] at h
    simp only [List.map_nil] at h
    rw [collapse_eq_self (by rw [containsSub]; rfl)] at h
    simp at h
  | some c1 =>
    have hc1 : pyIsSpace c1 = false := pyStrip_getLast? h1
    rw [pyReplace_single, pyReplace_single, pyReplace_single] at h
    set f1 : Char → Char := fun c => if c == '•' then '-' else c with hf1
    set f2 : Char → Char := fun c => if c == '●' then '-' else c with hf2
    set f3 : Char → Char := fun c => if c == '▪' then '-' else c with hf3
    have h4 : ((((pyStrip T).map f1).map f2).map f3).getLast? = some (f3 (f2 (f1 c1))) := by
      rw [List.getLast?_map, List.getLast?_map, List.getLast?_map, h1]
      rfl
    have hc4 : pyIsSpace (f3 (f2 (f1 c1))) = false := by
      refine bullet_map_isSpace (by decide) ?_
      refine bullet_map_isSpace (by decide) ?_
      exact bullet_map_isSpace (by decide) hc1
    have hcol := collapse_getLast? (c := f3 (f2 (f1 c1)))
      (by intro he; rw [he] at hc4; simp [pyIsSpace] at hc4) _ h4
    rw [hcol] at h
    rw [Option.some_inj] at h
    rw [← h]
    exact hc4

/-- Lemma: `containsSub` is the substring (contiguous infix) relation. -/
theorem containsSub_substring_iff (p : List Char) :
    ∀ (s : List Char), containsSub p s = true ↔ p <:+: s
  | [] => by
    rw [containsSub]
    constructor
    · intro h
      have hp : p = [] := by
        match p with
        | [] => rfl
        | _ :: _ => simp [List.isEmpty] at h
      subst hp
      exact List.nil_infix
    · intro h
      have hp := List.eq_nil_of_infix_nil h
      subst hp
      rfl
  | c :: rest => by
    rw [containsSub, Bool.or_eq_true, List.infix_cons_iff]
    constructor
    · intro h
      rcases h with h | h
      · exact Or.inl (isPrefixOf_eq_true_iff.mp h)
      · exact Or.inr ((containsSub_substring_iff p rest).mp h)
    · intro h
      rcases h with h | h
      · exact Or.inl (isPrefixOf_eq_true_iff.mpr h)
      · exact Or.inr ((containsSub_substring_iff p rest).mpr h)

/-! ### Claim theorems about the answer formatter -/

/-- Claim C1: the answer formatter is idempotent: for every text input `T`,
`format_answer (format_answer T) = format_answer T`. -/
theorem format_answer_idempotent (T : List Char) :
    format_answer (format_answer T) = format_answer T := by
  have hstrip : pyStrip (format_answer T) = format_answer T :=
    pyStrip_eq_self (fun _ h => format_answer_head? h)
      (fun _ h => format_answer_getLast? h)
  have hmapid : ∀ (a : Char), a ∉ format_answer T →
      pyReplace a [] ['-'] (format_answer T) = format_answer T := by
    intro a ha
    rw [pyReplace_single]
    have hcongr : ∀ c ∈ format_answer T,
        (fun c => if c == a then '-' else c) c = id c := by
      intro c hc
      have hne : c ≠ a := fun he => ha (he ▸ hc)
      simp [hne]
    rw [List.map_congr_left hcongr, List.map_id]
  have hcol : collapse (format_answer T) = format_answer T :=
    collapse_eq_self (format_answer_not_contains_nl3 T)
  conv_lhs => rw [format_answer_def]
  rw [hstrip, hmapid '•' (format_answer_not_mem_b1 T),
    hmapid '●' (format_answer_not_mem_b2 T),
    hmapid '▪' (format_answer_not_mem_b3 T), hcol]

/-- Claim C2: for every text input `T`, `format_answer T` contains none of the
three bullet glyphs, and no contiguous run of newline characters in it is
longer than two (in particular `"\n\n\n"` is not a substring). -/
theorem format_answer_clean (T : List Char) :
    ('•' ∉ format_answer T ∧ '●' ∉ format_answer T ∧ '▪' ∉ format_answer T) ∧
      (∀ (run : List Char), run <:+: format_answer T →
        (∀ c ∈ run, c = '\n') → run.length ≤ 2) := by
  refine ⟨⟨format_answer_not_mem_b1 T, format_answer_not_mem_b2 T,
    format_answer_not_mem_b3 T⟩, ?_⟩
  intro run hinf hall
  by_contra hlen
  push_neg at hlen
  have hrepl : run = List.replicate run.length '\n' := List.eq_replicate_of_mem hall
  have hpre : ['\n', '\n', '\n'] <+: run := by
    rw [hrepl]
    have : run.length = 3 + (run.length - 3) := by omega
    rw [this, List.replicate_add]
    exact ⟨List.replicate (run.length - 3) '\n', rfl⟩
  have hinf3 : ['\n', '\n', '\n'] <:+: format_answer T :=
    hpre.isInfix.trans hinf
  have := (containsSub_substring_iff _ _).mpr hinf3
  rw [format_answer_not_contains_nl3 T] at this
  exact Bool.false_ne_true this

/-- Claim C10: the answer formatter never lengthens its input: stripping never
adds characters, the bullet substitutions are one-for-one, and the newline
collapse only shortens. -/
theorem format_answer_length_le (T : List Char) :
    (format_answer T).length ≤ T.length := by
  rw [format_answer_def]
  have h1 := pyStrip_length_le T
  have h2 := pyReplace_length_le '•' [] ['-'] (by decide) (pyStrip T)
  have h3 := pyReplace_length_le '●' [] ['-'] (by decide)
    (pyReplace '•' [] ['-'] (pyStrip T))
  have h4 := pyReplace_length_le '▪' [] ['-'] (by decide)
    (pyReplace '●' [] ['-'] (pyReplace '•' [] ['-'] (pyStrip T)))
  have h5 := collapse_length_le
    (pyReplace '▪' [] ['-'] (pyReplace '●' [] ['-']
      (pyReplace '•' [] ['-'] (pyStrip T))))
  omega

/-! ### Claim theorems about the handlers -/

theorem joinSpace_ne_nil :
    ∀ (args : List (List Char)), args ≠ [] → (∀ a ∈ args, a ≠ []) →
      joinSpace args ≠ []
  | [], h, _ => absurd rfl h
  | [a], _, hall => by
    rw [joinSpace]
    exact hall a (List.mem_singleton_self a)
  | a :: b :: t, _, _ => by
    rw [joinSpace]
    simp

/-- Claim C4: the command `/solve` with no arguments replies exactly with the usage message and
performs no backend call; with (non-empty) arguments, the joined argument
text is sent to the backend and the formatted answer is the reply. -/
theorem solve_cmd_spec (gen : List Char → List Char) :
    (solve_cmd gen [] = [BotAction.reply usageMsg] ∧
      ∀ q, BotAction.callBackend q ∉ solve_cmd gen []) ∧
    (∀ (args : List (List Char)), args ≠ [] → (∀ a ∈ args, a ≠ []) →
      solve_cmd gen args =
        [BotAction.typing, BotAction.callBackend (joinSpace args),
         BotAction.reply (format_answer (gen (joinSpace args)))]) := by
  constructor
  · constructor
    · rw [solve_cmd]
      simp [joinSpace]
    · intro q
      rw [solve_cmd]
      simp [joinSpace]
  · intro args hne hall
    rw [solve_cmd]
    rw [if_neg (joinSpace_ne_nil args hne hall)]

theorem solve_cmd_spec_witness :
    (["2+2".toList] : List (List Char)) ≠ [] ∧
    solve_cmd genId ["2+2".toList] =
      [BotAction.typing, BotAction.callBackend (joinSpace ["2+2".toList]),
       BotAction.reply (format_answer (genId (joinSpace ["2+2".toList])))] :=
  ⟨by decide, (solve_cmd_spec genId).2 ["2+2".toList] (by decide) (by decide)⟩

/-- Claim C5: a group (or supergroup) message whose text does not contain the
substring `"@" + handle` produces no actions at all: no reply and no
backend call. -/
theorem handle_text_group_no_mention (gen : List Char → List Char)
    (botUsername chatType text : List Char)
    (hct : chatType ∈ ["group".toList, "supergroup".toList])
    (hnm : containsSub ('@' :: botUsername) text = false) :
    handle_text gen botUsername chatType text = [] ∧
    (∀ m, BotAction.reply m ∉ handle_text gen botUsername chatType text) ∧
    (∀ q, BotAction.callBackend q ∉ handle_text gen botUsername chatType text) := by
  have h : handle_text gen botUsername chatType text = [] := by
    rw [handle_text, if_pos hct, if_pos hnm]
  refine ⟨h, fun m => ?_, fun q => ?_⟩
  · rw [h]
    exact List.not_mem_nil _
  · rw [h]
    exact List.not_mem_nil _

theorem handle_text_group_no_mention_witness :
    ("group".toList ∈ ["group".toList, "supergroup".toList]) ∧
    handle_text genId "mybot".toList "group".toList "hello there".toList = [] :=
  ⟨by decide,
    (handle_text_group_no_mention genId "mybot".toList "group".toList
      "hello there".toList (by decide) (by decide)).1⟩

/-- Shared helper: a group message containing the mention substring is
processed with `text.replace("@" + handle, "").strip()` as the question. -/
theorem handle_text_group_mention (gen : List Char → List Char)
    (botUsername chatType text : List Char)
    (hct : chatType ∈ ["group".toList, "supergroup".toList])
    (hm : containsSub ('@' :: botUsername) text = true) :
    handle_text gen botUsername chatType text =
      [BotAction.typing,
       BotAction.callBackend (pyStrip (pyReplace '@' botUsername [] text)),
       BotAction.reply (format_answer (gen (pyStrip (pyReplace '@' botUsername [] text))))] := by
  rw [handle_text, if_pos hct, if_neg (by simp [hm])]

/-- Claim C6: in a group, `"@mybot What is 2+2? (1m)"` with handle `mybot` has the
mention stripped so that exactly `"What is 2+2? (1m)"` is sent to text-mode
generation. -/
theorem handle_text_mention_strip_example (gen : List Char → List Char) :
    handle_text gen "mybot".toList "group".toList
        "@mybot What is 2+2? (1m)".toList =
      [BotAction.typing, BotAction.callBackend "What is 2+2? (1m)".toList,
       BotAction.reply (format_answer (gen "What is 2+2? (1m)".toList))] := by
  have ht : pyStrip (pyReplace '@' "mybot".toList []
      "@mybot What is 2+2? (1m)".toList) = "What is 2+2? (1m)".toList := by
    rw [pyReplace_eq_aux]
    decide
  rw [handle_text_group_mention gen "mybot".toList "group".toList
    "@mybot What is 2+2? (1m)".toList (by decide) (by decide), ht]

/-- Claim C8: a plain text message in a direct (non-group) chat is always sent to
text-mode generation with its text unchanged, with no mention stripping. -/
theorem handle_text_direct (gen : List Char → List Char)
    (botUsername chatType text : List Char)
    (hct : chatType ∉ ["group".toList, "supergroup".toList]) :
    handle_text gen botUsername chatType text =
      [BotAction.typing, BotAction.callBackend text,
       BotAction.reply (format_answer (gen text))] := by
  rw [handle_text, if_neg hct]

theorem handle_text_direct_witness :
    ("private".toList ∉ ["group".toList, "supergroup".toList]) ∧
    handle_text genId "mybot".toList "private".toList "@mybot hi".toList =
      [BotAction.typing, BotAction.callBackend "@mybot hi".toList,
       BotAction.reply (format_answer (genId "@mybot hi".toList))] :=
  ⟨by decide,
    handle_text_direct genId "mybot".toList "private".toList
      "@mybot hi".toList (by decide)⟩

/-- Claim C9: group-mention gating is plain substring containment, and stripping
replaces every occurrence of `"@" + handle` scanned left to right: a text
where the handle is a prefix of a longer token is still processed, with the
matching prefix removed and the residue kept. -/
theorem handle_text_mention_substring_semantics (gen : List Char → List Char)
    (botUsername chatType text : List Char)
    (hct : chatType ∈ ["group".toList, "supergroup".toList])
    (hm : containsSub ('@' :: botUsername) text = true) :
    handle_text gen botUsername chatType text =
      [BotAction.typing,
       BotAction.callBackend (pyStrip (pyReplace '@' botUsername [] text)),
       BotAction.reply (format_answer (gen (pyStrip (pyReplace '@' botUsername [] text))))] :=
  handle_text_group_mention gen botUsername chatType text hct hm

theorem handle_text_mention_substring_semantics_witness :
    containsSub ('@' :: "mybot".toList) "@mybotxyz hello".toList = true ∧
    handle_text genId "mybot".toList "group".toList "@mybotxyz hello".toList =
      [BotAction.typing, BotAction.callBackend "xyz hello".toList,
       BotAction.reply (format_answer (genId "xyz hello".toList))] := by
  constructor
  · decide
  · have h := handle_text_mention_substring_semantics genId "mybot".toList
      "group".toList "@mybotxyz hello".toList (by decide) (by decide)
    have ht : pyStrip (pyReplace '@' "mybot".toList []
        "@mybotxyz hello".toList) = "xyz hello".toList := by
      rw [pyReplace_eq_aux]
      decide
    rw [h, ht]

/-- Claim C3: if any step inside the `try:` block of `handle_image` fails (photo
access, file handle, download, typing signal, generation, or the reply), and
the failure-notification send itself succeeds, then the user receives exactly
the message `"Image processing failed."` and no failure escapes the
handler. -/
theorem handle_image_failure (env : ImageEnv) (e : List Char)
    (htry : handle_image_try env = .error e)
    (hreply : env.replyText "Image processing failed.".toList = .ok ()) :
    handle_image env = (["Image processing failed.".toList], none) := by
  rw [handle_image, htry, hreply]

theorem handle_image_failure_witness :
    handle_image_try failEnv = .error "no photo".toList ∧
    handle_image failEnv = (["Image processing failed.".toList], none) :=
  ⟨rfl, handle_image_failure failEnv "no photo".toList rfl rfl⟩

/-- Claim C7: when the input bytes cannot be decoded as an image (`Image.open`
fails), `to_jpeg` signals no error and returns the original bytes unchanged,
byte for byte. -/
theorem to_jpeg_passthrough {Img : Type}
    (openImg : List Nat → Except (List Char) Img)
    (convertRGB : Img → Except (List Char) Img)
    (saveJPEG : Img → Except (List Char) (List Nat))
    (img_bytes : List Nat) (e : List Char)
    (hopen : openImg img_bytes = .error e) :
    to_jpeg openImg convertRGB saveJPEG img_bytes = img_bytes := by
  rw [to_jpeg]
  simp only [hopen]
  rfl

theorem to_jpeg_passthrough_witness :
    (fun (_ : List Nat) =>
        (Except.error "cannot identify image".toList : Except (List Char) Nat)) [1, 2, 3] =
      Except.error "cannot identify image".toList ∧
    to_jpeg (fun (_ : List Nat) =>
        (Except.error "cannot identify image".toList : Except (List Char) Nat))
      (fun i => .ok i) (fun _ => .ok []) [1, 2, 3] = [1, 2, 3] :=
  ⟨rfl,
    to_jpeg_passthrough (fun _ => .error "cannot identify image".toList)
      (fun i => .ok i) (fun _ => .ok []) [1, 2, 3]
      "cannot identify image".toList rfl⟩
